import Mathlib

/-
Verification of the encoder-reading script (src/a_in.py).

The script polls an analog input device: it keeps, per channel, the last
observed voltage (data_vol_pre) and a running unwrapped voltage total
(data_vol_incr), both arrays of eight rationals here.  Every iteration of
the polling loop reads a reference full-scale voltage from channel 0,
derives a wrap tolerance from it, then for each channel 1..high_channel
reads a sample, applies the unwrap rule to the accumulator, records the
radian output and stores the sample as the new previous voltage.

Voltages are modelled as rationals.  The radian output on line 135 is the
rational coefficient data_vol_incr[channel] / data_vol_max * 2 times pi;
outputs are recorded as pairs of channel number and that coefficient, and
dataRad turns a coefficient into the real radian value.  The embedding
models the fault-free trace of the loop; the exception structure of the
loop (lines 113-144) is modelled separately by PyExc and innerExceptCatches.
-/

namespace EncoderReading

/-- The constant tolerance_ratio = 0.9 set on line 107 of a_in.py. -/
def tolerance_ratio : ℚ := 9 / 10

/-- The constant low_channel = 0 set on line 35 of a_in.py. -/
def low_channel : ℕ := 0

/-- The mutable per-channel arrays of the script: data_vol_pre and
data_vol_incr (lines 105-106), each a list of eight rationals. -/
structure LoopState where
  pre : List ℚ
  incr : List ℚ
deriving DecidableEq

/-- The compensated per-step increment chosen by the branch on lines
129-134: delta minus data_vol_max when delta exceeds the tolerance, delta
plus data_vol_max when delta is below minus the tolerance, and delta
otherwise, where tolerance = data_vol_max * tolerance_ratio (line 122). -/
def unwrapDelta (pre_c data_vol data_vol_max : ℚ) : ℚ :=
  let tolerance := data_vol_max * tolerance_ratio
  if data_vol - pre_c > tolerance then data_vol - pre_c - data_vol_max
  else if data_vol - pre_c < -1 * tolerance then data_vol - pre_c + data_vol_max
  else data_vol - pre_c

/-- Body of the display loop for one channel (lines 126-138 of a_in.py):
read the sample, add the compensated delta to the accumulator following the
three branches of lines 129-134, compute the radian coefficient of line 135,
store the sample as the previous voltage (line 136) and append the printed
pair of channel and coefficient (lines 137-138).  The fold accumulator pairs
the loop state with the list of lines printed so far. -/
def processChannel (data_vol_max : ℚ) (read : ℕ → ℚ)
    (acc : LoopState × List (ℕ × ℚ)) (channel : ℕ) : LoopState × List (ℕ × ℚ) :=
  let s := acc.1
  let data_vol := read channel
  let tolerance := data_vol_max * tolerance_ratio
  let pre_c := s.pre.getD channel 0
  let incr_c := s.incr.getD channel 0
  let incr_c' :=
    if data_vol - pre_c > tolerance then incr_c + (data_vol - pre_c - data_vol_max)
    else if data_vol - pre_c < -1 * tolerance then incr_c + (data_vol - pre_c + data_vol_max)
    else incr_c + (data_vol - pre_c)
  (⟨s.pre.set channel data_vol, s.incr.set channel incr_c'⟩,
    acc.2 ++ [(channel, incr_c' / data_vol_max * 2)])

/-- The real radian value printed on line 135: the recorded coefficient
data_vol_incr[channel] / data_vol_max * 2 times pi. -/
noncomputable def dataRad (coeff : ℚ) : ℝ := (coeff : ℝ) * Real.pi

/-- The console line of lines 137-138, given the formatted numeral: the
script prints the channel number and the radian value to six decimal
places with this exact surrounding text. -/
def renderLine (channel : ℕ) (formatted : String) : String :=
  "Channel(" ++ toString channel ++ ") Data: " ++ formatted

/-- One iteration of the polling loop (lines 119-138): read the reference
full-scale voltage data_vol_max from channel 0 (lines 119-121), then run the
display loop over channels low_channel + 1 .. high_channel (line 125).
Returns the updated state and the printed lines of this iteration. -/
def iterStep (high_channel : ℕ) (read : ℕ → ℚ) (s : LoopState) :
    LoopState × List (ℕ × ℚ) :=
  let data_vol_max := read 0
  (List.range' (low_channel + 1) (high_channel - low_channel)).foldl
    (processChannel data_vol_max read) (s, [])

/-- The initialization on lines 105-111: both arrays start as eight zeros,
then data_vol_pre[channel] is overwritten with a first sample for every
channel low_channel .. high_channel. -/
def initState (high_channel : ℕ) (read0 : ℕ → ℚ) : LoopState :=
  { pre := (List.range' low_channel (high_channel + 1 - low_channel)).foldl
      (fun l channel => l.set channel (read0 channel)) (List.replicate 8 0),
    incr := List.replicate 8 0 }

/-- The fault-free trace of the while loop (lines 113-140): one iterStep per
element of reads, where each element gives the voltages the device returns
on that iteration.  Returns the final state and all printed lines. -/
def runLoop (high_channel : ℕ) (reads : List (ℕ → ℚ)) (s : LoopState) :
    LoopState × List (ℕ × ℚ) :=
  reads.foldl (fun acc read =>
    ((iterStep high_channel read acc.1).1,
      acc.2 ++ (iterStep high_channel read acc.1).2)) (s, [])

/-- Reference recurrence for a single channel: fold the unwrap rule of lines
129-134 over a list of pairs of reference voltage and sample, threading the
previous voltage and the accumulator. -/
def accumSteps : ℚ → ℚ → List (ℚ × ℚ) → ℚ
  | _, acc, [] => acc
  | pre, acc, (data_vol_max, v) :: rest =>
      accumSteps v (acc + unwrapDelta pre v data_vol_max) rest

/-- Raw per-step deltas of a sample sequence, starting from a given
previous voltage. -/
def stepDeltas : ℚ → List ℚ → List ℚ
  | _, [] => []
  | pre, v :: vs => (v - pre) :: stepDeltas v vs

/-- Kinds of Python exceptions relevant to the script.  synError stands for
the Python SyntaxError class. -/
inductive PyExc where
  | valueError
  | nameError
  | synError
  | zeroDivisionError
  | typeError
  | keyboardInterrupt
deriving DecidableEq

/-- The except clause of the polling loop (lines 141-142 of a_in.py): the
tuple it catches holds exactly ValueError, NameError and SyntaxError, and
its body is a break. -/
def innerExceptCatches : PyExc → Bool
  | PyExc.valueError => true
  | PyExc.nameError => true
  | PyExc.synError => true
  | _ => false

/-- Python semantics of the division on line 135: dividing by data_vol_max
raises ZeroDivisionError exactly when data_vol_max is zero, and raises
nothing otherwise. -/
def divisionFault (data_vol_max : ℚ) : Option PyExc :=
  if data_vol_max = 0 then some PyExc.zeroDivisionError else none

/-- Modelled from the spec: the class of faults the spec calls numeric or
type faults, naming division by zero explicitly; used only to compare the
spec wording with the except clause the code actually has. -/
def numericOrTypeFaultSpec : PyExc → Bool
  | PyExc.zeroDivisionError => true
  | PyExc.typeError => true
  | _ => false

theorem getD_set_self (l : List ℚ) (i : ℕ) (a : ℚ) (h : i < l.length) :
    (l.set i a).getD i 0 = a := by
  simp [List.getD_eq_getElem?_getD, List.getElem?_set_self', List.getElem?_eq_getElem h]

theorem getD_set_ne (l : List ℚ) {i j : ℕ} (a : ℚ) (h : i ≠ j) :
    (l.set i a).getD j 0 = l.getD j 0 := by
  simp [List.getD_eq_getElem?_getD, List.getElem?_set_ne h]

theorem processChannel_eq (m : ℚ) (read : ℕ → ℚ) (acc : LoopState × List (ℕ × ℚ)) (c : ℕ) :
    processChannel m read acc c
      = (⟨acc.1.pre.set c (read c),
          acc.1.incr.set c (acc.1.incr.getD c 0 + unwrapDelta (acc.1.pre.getD c 0) (read c) m)⟩,
        acc.2 ++ [(c, (acc.1.incr.getD c 0 + unwrapDelta (acc.1.pre.getD c 0) (read c) m) / m * 2)]) := by
  unfold processChannel unwrapDelta
  dsimp only
  split_ifs <;> rfl

theorem foldPC_length (m : ℚ) (read : ℕ → ℚ) (cs : List ℕ) :
    ∀ (s : LoopState) (out : List (ℕ × ℚ)),
      ((cs.foldl (processChannel m read) (s, out)).1.pre.length = s.pre.length ∧
       (cs.foldl (processChannel m read) (s, out)).1.incr.length = s.incr.length) := by
  induction cs with
  | nil => intro s out; exact ⟨rfl, rfl⟩
  | cons c cs ih =>
    intro s out
    rw [List.foldl_cons, processChannel_eq]
    refine ⟨?_, ?_⟩
    · rw [(ih _ _).1]; simp
    · rw [(ih _ _).2]; simp

theorem foldPC_frame (m : ℚ) (read : ℕ → ℚ) (cs : List ℕ) :
    ∀ (s : LoopState) (out : List (ℕ × ℚ)) (j : ℕ), j ∉ cs →
      ((cs.foldl (processChannel m read) (s, out)).1.pre.getD j 0 = s.pre.getD j 0 ∧
       (cs.foldl (processChannel m read) (s, out)).1.incr.getD j 0 = s.incr.getD j 0) := by
  induction cs with
  | nil => intro s out j _; exact ⟨rfl, rfl⟩
  | cons c cs ih =>
    intro s out j hj
    rw [List.foldl_cons, processChannel_eq]
    have hcj : c ≠ j := fun h => hj (h ▸ List.mem_cons_self c cs)
    have hmem : j ∉ cs := fun h => hj (List.mem_cons_of_mem c h)
    obtain ⟨h1, h2⟩ := ih _ _ j hmem
    rw [h1, h2]
    exact ⟨getD_set_ne _ _ hcj, getD_set_ne _ _ hcj⟩

theorem foldPC_inrange (m : ℚ) (read : ℕ → ℚ) (a : ℕ) :
    ∀ (n : ℕ) (s : LoopState) (out : List (ℕ × ℚ)) (j : ℕ),
      a ≤ j → j < a + n → j < s.pre.length → j < s.incr.length →
      ((List.range' a n).foldl (processChannel m read) (s, out)).1.pre.getD j 0 = read j ∧
      ((List.range' a n).foldl (processChannel m read) (s, out)).1.incr.getD j 0
        = s.incr.getD j 0 + unwrapDelta (s.pre.getD j 0) (read j) m := by
  intro n
  induction n with
  | zero => intro s out j h1 h2 _ _; omega
  | succ n ih =>
    intro s out j h1 h2 hp hi
    have hconcat : List.range' a (n + 1) = List.range' a n ++ [a + n] := by
      simpa using @List.range'_concat 1 a n
    rw [hconcat, List.foldl_append, List.foldl_cons, List.foldl_nil, processChannel_eq]
    by_cases hj : j < a + n
    · obtain ⟨g1, g2⟩ := ih s out j h1 hj hp hi
      have hne : a + n ≠ j := by omega
      exact ⟨by rw [getD_set_ne _ _ hne, g1], by rw [getD_set_ne _ _ hne, g2]⟩
    · have hja : j = a + n := by omega
      have hnm : j ∉ List.range' a n := by
        intro hmem
        exact absurd (List.mem_range'_1.mp hmem).2 (by omega)
      obtain ⟨f1, f2⟩ := foldPC_frame m read (List.range' a n) s out j hnm
      obtain ⟨l1, l2⟩ := foldPC_length m read (List.range' a n) s out
      subst hja
      constructor
      · rw [getD_set_self _ _ _ (by rw [l1]; exact hp)]
      · rw [getD_set_self _ _ _ (by rw [l2]; exact hi), f1, f2]

theorem foldPC_out (m : ℚ) (read : ℕ → ℚ) (a : ℕ) :
    ∀ (n : ℕ) (s : LoopState) (out : List (ℕ × ℚ)),
      ((List.range' a n).foldl (processChannel m read) (s, out)).2
        = out ++ (List.range' a n).map (fun c =>
            (c, (s.incr.getD c 0 + unwrapDelta (s.pre.getD c 0) (read c) m) / m * 2)) := by
  intro n
  induction n with
  | zero => intro s out; simp
  | succ n ih =>
    intro s out
    have hconcat : List.range' a (n + 1) = List.range' a n ++ [a + n] := by
      simpa using @List.range'_concat 1 a n
    rw [hconcat, List.foldl_append, List.foldl_cons, List.foldl_nil, processChannel_eq]
    have hnm : a + n ∉ List.range' a n := by
      intro hmem
      exact absurd (List.mem_range'_1.mp hmem).2 (by omega)
    obtain ⟨f1, f2⟩ := foldPC_frame m read (List.range' a n) s out (a + n) hnm
    dsimp only
    rw [ih s out, f1, f2, List.map_append, List.map_cons, List.map_nil, List.append_assoc]

theorem iterStep_def (high_channel : ℕ) (read : ℕ → ℚ) (s : LoopState) :
    iterStep high_channel read s
      = (List.range' 1 high_channel).foldl (processChannel (read 0) read) (s, []) := rfl

theorem iterStep_inrange (high_channel c : ℕ) (read : ℕ → ℚ) (s : LoopState)
    (h1 : 1 ≤ c) (h2 : c ≤ high_channel)
    (hp : c < s.pre.length) (hi : c < s.incr.length) :
    (iterStep high_channel read s).1.pre.getD c 0 = read c ∧
    (iterStep high_channel read s).1.incr.getD c 0
      = s.incr.getD c 0 + unwrapDelta (s.pre.getD c 0) (read c) (read 0) := by
  rw [iterStep_def]
  exact foldPC_inrange (read 0) read 1 high_channel s [] c h1 (by omega) hp hi

theorem iterStep_frame (high_channel : ℕ) (read : ℕ → ℚ) (s : LoopState) (j : ℕ)
    (hj : j = 0 ∨ high_channel < j) :
    (iterStep high_channel read s).1.pre.getD j 0 = s.pre.getD j 0 ∧
    (iterStep high_channel read s).1.incr.getD j 0 = s.incr.getD j 0 := by
  rw [iterStep_def]
  refine foldPC_frame (read 0) read (List.range' 1 high_channel) s [] j ?_
  intro hmem
  obtain ⟨hlo, hhi⟩ := List.mem_range'_1.mp hmem
  omega

theorem iterStep_length (high_channel : ℕ) (read : ℕ → ℚ) (s : LoopState) :
    (iterStep high_channel read s).1.pre.length = s.pre.length ∧
    (iterStep high_channel read s).1.incr.length = s.incr.length := by
  rw [iterStep_def]
  exact foldPC_length (read 0) read (List.range' 1 high_channel) s []

theorem iterStep_out (high_channel : ℕ) (read : ℕ → ℚ) (s : LoopState) :
    (iterStep high_channel read s).2
      = (List.range' 1 high_channel).map (fun c =>
          (c, (s.incr.getD c 0 + unwrapDelta (s.pre.getD c 0) (read c) (read 0)) / read 0 * 2)) := by
  rw [iterStep_def]
  simpa using foldPC_out (read 0) read 1 high_channel s []

theorem runLoop_nil (high_channel : ℕ) (s : LoopState) :
    runLoop high_channel [] s = (s, []) := rfl

theorem runLoop_acc (high_channel : ℕ) (reads : List (ℕ → ℚ)) :
    ∀ (s : LoopState) (out : List (ℕ × ℚ)),
      reads.foldl (fun acc read =>
          ((iterStep high_channel read acc.1).1,
            acc.2 ++ (iterStep high_channel read acc.1).2)) (s, out)
        = ((runLoop high_channel reads s).1, out ++ (runLoop high_channel reads s).2) := by
  induction reads with
  | nil => intro s out; simp [runLoop]
  | cons r rest ih =>
    intro s out
    rw [List.foldl_cons]
    dsimp only
    rw [ih (iterStep high_channel r s).1 (out ++ (iterStep high_channel r s).2)]
    unfold runLoop
    rw [List.foldl_cons]
    dsimp only
    rw [ih (iterStep high_channel r s).1 ([] ++ (iterStep high_channel r s).2)]
    simp
    exact ⟨rfl, rfl⟩

theorem runLoop_cons (high_channel : ℕ) (r : ℕ → ℚ) (rest : List (ℕ → ℚ)) (s : LoopState) :
    runLoop high_channel (r :: rest) s
      = ((runLoop high_channel rest (iterStep high_channel r s).1).1,
        (iterStep high_channel r s).2
          ++ (runLoop high_channel rest (iterStep high_channel r s).1).2) := by
  unfold runLoop
  rw [List.foldl_cons]
  dsimp only
  rw [runLoop_acc high_channel rest (iterStep high_channel r s).1
      ([] ++ (iterStep high_channel r s).2)]
  simp
  exact ⟨rfl, rfl⟩

theorem runLoop_proj (high_channel c : ℕ) (h1 : 1 ≤ c) (h2 : c ≤ high_channel)
    (reads : List (ℕ → ℚ)) :
    ∀ (s : LoopState), c < s.pre.length → c < s.incr.length →
      ((runLoop high_channel reads s).1.incr.getD c 0
          = accumSteps (s.pre.getD c 0) (s.incr.getD c 0) (reads.map fun r => (r 0, r c)) ∧
       (runLoop high_channel reads s).1.pre.getD c 0
          = (reads.map fun r => r c).getLastD (s.pre.getD c 0) ∧
       (runLoop high_channel reads s).1.pre.length = s.pre.length ∧
       (runLoop high_channel reads s).1.incr.length = s.incr.length) := by
  induction reads with
  | nil => intro s _ _; exact ⟨rfl, rfl, rfl, rfl⟩
  | cons r rest ih =>
    intro s hp hi
    rw [runLoop_cons]
    obtain ⟨e1, e2⟩ := iterStep_inrange high_channel c r s h1 h2 hp hi
    obtain ⟨l1, l2⟩ := iterStep_length high_channel r s
    obtain ⟨g1, g2, g3, g4⟩ := ih (iterStep high_channel r s).1
      (by rw [l1]; exact hp) (by rw [l2]; exact hi)
    refine ⟨?_, ?_, ?_, ?_⟩
    · rw [g1, e1, e2, List.map_cons]
      rfl
    · rw [g2, e1, List.map_cons, List.getLastD_cons]
    · rw [g3, l1]
    · rw [g4, l2]

theorem runLoop_frame0 (high_channel : ℕ) (reads : List (ℕ → ℚ)) :
    ∀ (s : LoopState),
      (runLoop high_channel reads s).1.pre.getD 0 0 = s.pre.getD 0 0 ∧
      (runLoop high_channel reads s).1.incr.getD 0 0 = s.incr.getD 0 0 := by
  induction reads with
  | nil => intro s; exact ⟨rfl, rfl⟩
  | cons r rest ih =>
    intro s
    rw [runLoop_cons]
    obtain ⟨f1, f2⟩ := iterStep_frame high_channel r s 0 (Or.inl rfl)
    obtain ⟨g1, g2⟩ := ih (iterStep high_channel r s).1
    exact ⟨by rw [g1, f1], by rw [g2, f2]⟩

theorem runLoop_out_pos (high_channel : ℕ) (reads : List (ℕ → ℚ)) :
    ∀ (s : LoopState) (l : ℕ × ℚ), l ∈ (runLoop high_channel reads s).2 → 1 ≤ l.1 := by
  induction reads with
  | nil => intro s l hl; simp [runLoop_nil] at hl
  | cons r rest ih =>
    intro s l hl
    rw [runLoop_cons] at hl
    rcases List.mem_append.mp hl with hcur | hrest
    · rw [iterStep_out] at hcur
      obtain ⟨ch, hch, hpair⟩ := List.mem_map.mp hcur
      have := (List.mem_range'_1.mp hch).1
      rw [← hpair]
      exact this
    · exact ih (iterStep high_channel r s).1 l hrest

theorem foldSet_length (f : ℕ → ℚ) (cs : List ℕ) :
    ∀ l : List ℚ, (cs.foldl (fun l c => l.set c (f c)) l).length = l.length := by
  induction cs with
  | nil => intro l; rfl
  | cons c cs ih =>
    intro l
    rw [List.foldl_cons, ih]
    simp

theorem foldSet_frame (f : ℕ → ℚ) (cs : List ℕ) :
    ∀ (l : List ℚ) (j : ℕ), j ∉ cs →
      (cs.foldl (fun l c => l.set c (f c)) l).getD j 0 = l.getD j 0 := by
  induction cs with
  | nil => intro l j _; rfl
  | cons c cs ih =>
    intro l j hj
    have hcj : c ≠ j := fun h => hj (h ▸ List.mem_cons_self c cs)
    have hmem : j ∉ cs := fun h => hj (List.mem_cons_of_mem c h)
    rw [List.foldl_cons, ih _ j hmem, getD_set_ne _ _ hcj]

theorem foldSet_getD (f : ℕ → ℚ) :
    ∀ (n : ℕ) (l : List ℚ) (j : ℕ), j < n → j < l.length →
      ((List.range' 0 n).foldl (fun l c => l.set c (f c)) l).getD j 0 = f j := by
  intro n
  induction n with
  | zero => intro l j h _; omega
  | succ n ih =>
    intro l j hj hl
    have hconcat : List.range' 0 (n + 1) = List.range' 0 n ++ [n] := by
      simpa using @List.range'_concat 1 0 n
    rw [hconcat, List.foldl_append, List.foldl_cons, List.foldl_nil]
    by_cases hjn : j < n
    · have hne : n ≠ j := by omega
      rw [getD_set_ne _ _ hne, ih l j hjn hl]
    · have hja : j = n := by omega
      have hnm : j ∉ List.range' 0 n := by
        intro hmem
        exact absurd (List.mem_range'_1.mp hmem).2 (by omega)
      subst hja
      rw [getD_set_self _ _ _ (by rw [foldSet_length]; exact hl)]

theorem getD_replicate (n j : ℕ) : (List.replicate n (0 : ℚ)).getD j 0 = 0 := by
  rw [List.getD_eq_getElem?_getD, List.getElem?_replicate]
  split <;> rfl

theorem initState_pre_getD (high_channel : ℕ) (read0 : ℕ → ℚ) (j : ℕ)
    (hj : j ≤ high_channel) (h8 : j < 8) :
    (initState high_channel read0).pre.getD j 0 = read0 j := by
  unfold initState low_channel
  dsimp only
  rw [Nat.sub_zero]
  exact foldSet_getD read0 (high_channel + 1) (List.replicate 8 0) j (by omega)
    (by simpa using h8)

theorem initState_incr_getD (high_channel : ℕ) (read0 : ℕ → ℚ) (j : ℕ) :
    (initState high_channel read0).incr.getD j 0 = 0 := getD_replicate 8 j

theorem initState_length (high_channel : ℕ) (read0 : ℕ → ℚ) :
    (initState high_channel read0).pre.length = 8 ∧
    (initState high_channel read0).incr.length = 8 := by
  unfold initState
  constructor
  · rw [foldSet_length]; simp
  · simp

theorem unwrapDelta_no_wrap (p v m : ℚ)
    (hlo : -(m * tolerance_ratio) ≤ v - p) (hhi : v - p ≤ m * tolerance_ratio) :
    unwrapDelta p v m = v - p := by
  unfold unwrapDelta
  dsimp only
  rw [if_neg (not_lt.mpr hhi), if_neg (not_lt.mpr (by linarith))]

theorem unwrapDelta_cases (p v m : ℚ) :
    ∃ k : ℤ, (k = -1 ∨ k = 0 ∨ k = 1) ∧ unwrapDelta p v m = (v - p) + k * m := by
  unfold unwrapDelta
  dsimp only
  split_ifs
  · exact ⟨-1, Or.inl rfl, by push_cast; ring⟩
  · exact ⟨1, Or.inr (Or.inr rfl), by push_cast; ring⟩
  · exact ⟨0, Or.inr (Or.inl rfl), by push_cast; ring⟩

theorem accumSteps_no_wrap (m : ℚ) (vs : List ℚ) :
    ∀ (pre acc : ℚ),
      (∀ d ∈ stepDeltas pre vs, -(m * tolerance_ratio) ≤ d ∧ d ≤ m * tolerance_ratio) →
      accumSteps pre acc (vs.map fun v => (m, v)) = acc + (stepDeltas pre vs).sum := by
  induction vs with
  | nil => intro pre acc _; simp [accumSteps, stepDeltas]
  | cons v vs ih =>
    intro pre acc h
    have hd := h (v - pre) (by simp [stepDeltas])
    rw [List.map_cons]
    show accumSteps v (acc + unwrapDelta pre v m) (vs.map fun v => (m, v)) = _
    rw [unwrapDelta_no_wrap pre v m hd.1 hd.2,
      ih v (acc + (v - pre)) (fun d hdm => h d (by simp [stepDeltas]; exact Or.inr hdm))]
    show _ = acc + ((v - pre) :: stepDeltas v vs).sum
    rw [List.sum_cons]
    ring

theorem accumSteps_mod (m : ℚ) (vs : List ℚ) :
    ∀ (pre acc : ℚ), ∃ k : ℤ,
      accumSteps pre acc (vs.map fun v => (m, v)) = acc + (vs.getLastD pre - pre) + k * m := by
  induction vs with
  | nil => intro pre acc; exact ⟨0, by simp [accumSteps]⟩
  | cons v vs ih =>
    intro pre acc
    obtain ⟨k1, _, hk1⟩ := unwrapDelta_cases pre v m
    obtain ⟨k2, hk2⟩ := ih v (acc + unwrapDelta pre v m)
    refine ⟨k1 + k2, ?_⟩
    rw [List.map_cons]
    show accumSteps v (acc + unwrapDelta pre v m) (vs.map fun v => (m, v)) = _
    rw [hk2, hk1, List.getLastD_cons]
    push_cast
    ring

theorem map_pair_of_const (c : ℕ) (m : ℚ) (reads : List (ℕ → ℚ))
    (hm : ∀ r ∈ reads, r 0 = m) :
    (reads.map fun r => (r 0, r c)) = (reads.map fun r => r c).map (fun v => (m, v)) := by
  induction reads with
  | nil => rfl
  | cons r rest ih =>
    rw [List.map_cons, List.map_cons, List.map_cons,
      hm r (List.mem_cons_self r rest),
      ih (fun q hq => hm q (List.mem_cons_of_mem r hq))]

theorem unwrapDelta_spec_if (p v m : ℚ) :
    unwrapDelta p v m
      = (if v - p > 9 / 10 * m then v - p - m
        else if v - p < -(9 / 10 * m) then v - p + m
        else v - p) := by
  unfold unwrapDelta tolerance_ratio
  dsimp only
  split_ifs <;> first | rfl | linarith

theorem unwrapDelta_self (p m : ℚ) (hm : 0 ≤ m) : unwrapDelta p p m = 0 := by
  have ht : 0 ≤ m * tolerance_ratio := mul_nonneg hm (by norm_num [tolerance_ratio])
  unfold unwrapDelta
  dsimp only
  rw [sub_self, if_neg (not_lt.mpr ht), if_neg (not_lt.mpr (by linarith))]

/-- Claim C1: on a channel update with previous voltage p, new sample v,
reference full-scale voltage m read from channel 0 in the same iteration,
tolerance t = 0.9 * m and delta d = v - p, the accumulator increases by
d - m when d > t, by d + m when d < -t, and by d otherwise; the line
recorded for the channel carries the coefficient of the new accumulator
divided by m times 2, and its radian value equals the new accumulator
divided by m times 2 pi. -/
theorem unwrap_update_contract (high_channel c : ℕ) (read : ℕ → ℚ) (s : LoopState)
    (h1 : 1 ≤ c) (h2 : c ≤ high_channel)
    (hp : c < s.pre.length) (hi : c < s.incr.length) :
    (iterStep high_channel read s).1.incr.getD c 0
      = s.incr.getD c 0 +
        (if read c - s.pre.getD c 0 > 9 / 10 * read 0 then
            read c - s.pre.getD c 0 - read 0
          else if read c - s.pre.getD c 0 < -(9 / 10 * read 0) then
            read c - s.pre.getD c 0 + read 0
          else read c - s.pre.getD c 0)
  ∧ (c, (iterStep high_channel read s).1.incr.getD c 0 / read 0 * 2)
      ∈ (iterStep high_channel read s).2
  ∧ dataRad ((iterStep high_channel read s).1.incr.getD c 0 / read 0 * 2)
      = ((iterStep high_channel read s).1.incr.getD c 0 : ℝ) / (read 0 : ℝ)
          * (2 * Real.pi) := by
  obtain ⟨e1, e2⟩ := iterStep_inrange high_channel c read s h1 h2 hp hi
  refine ⟨?_, ?_, ?_⟩
  · rw [e2, unwrapDelta_spec_if]
  · rw [iterStep_out]
    refine List.mem_map.mpr ⟨c, List.mem_range'_1.mpr ⟨h1, by omega⟩, ?_⟩
    rw [e2]
  · unfold dataRad
    push_cast
    ring

theorem unwrap_update_contract_witness :
    (iterStep 7 (fun _ => (2 : ℚ))
        (LoopState.mk (List.replicate 8 1) (List.replicate 8 0))).1.incr.getD 1 0
      = (LoopState.mk (List.replicate 8 1) (List.replicate 8 (0 : ℚ))).incr.getD 1 0 +
        (if (2 : ℚ) - (LoopState.mk (List.replicate 8 1)
              (List.replicate 8 (0 : ℚ))).pre.getD 1 0 > 9 / 10 * 2 then
            (2 : ℚ) - (LoopState.mk (List.replicate 8 1)
              (List.replicate 8 (0 : ℚ))).pre.getD 1 0 - 2
          else if (2 : ℚ) - (LoopState.mk (List.replicate 8 1)
              (List.replicate 8 (0 : ℚ))).pre.getD 1 0 < -(9 / 10 * 2) then
            (2 : ℚ) - (LoopState.mk (List.replicate 8 1)
              (List.replicate 8 (0 : ℚ))).pre.getD 1 0 + 2
          else (2 : ℚ) - (LoopState.mk (List.replicate 8 1)
              (List.replicate 8 (0 : ℚ))).pre.getD 1 0)
  ∧ dataRad ((iterStep 7 (fun _ => (2 : ℚ))
        (LoopState.mk (List.replicate 8 1) (List.replicate 8 0))).1.incr.getD 1 0 / 2 * 2)
      = (((iterStep 7 (fun _ => (2 : ℚ))
          (LoopState.mk (List.replicate 8 1) (List.replicate 8 0))).1.incr.getD 1 0 : ℝ))
          / ((2 : ℚ) : ℝ) * (2 * Real.pi) := by
  have h := unwrap_update_contract 7 1 (fun _ => (2 : ℚ))
    (LoopState.mk (List.replicate 8 1) (List.replicate 8 0))
    (by decide) (by decide) (by decide) (by decide)
  exact ⟨h.1, h.2.2⟩

/-- Claim C7: after processing a sample for a channel, that channel holds
the new sample as its previous voltage, and the previous voltage and
accumulator of every other channel are unchanged. -/
theorem frame_after_update (m : ℚ) (read : ℕ → ℚ) (s : LoopState)
    (out : List (ℕ × ℚ)) (c : ℕ) (hp : c < s.pre.length) :
    (processChannel m read (s, out) c).1.pre.getD c 0 = read c
  ∧ ∀ j, j ≠ c →
      (processChannel m read (s, out) c).1.pre.getD j 0 = s.pre.getD j 0 ∧
      (processChannel m read (s, out) c).1.incr.getD j 0 = s.incr.getD j 0 := by
  rw [processChannel_eq]
  exact ⟨getD_set_self _ _ _ hp,
    fun j hj => ⟨getD_set_ne _ _ (Ne.symm hj), getD_set_ne _ _ (Ne.symm hj)⟩⟩

theorem frame_after_update_witness :
    (processChannel 5 (fun _ => (3 : ℚ))
        (LoopState.mk (List.replicate 8 1) (List.replicate 8 0), []) 2).1.pre.getD 2 0 = 3
  ∧ (processChannel 5 (fun _ => (3 : ℚ))
        (LoopState.mk (List.replicate 8 1) (List.replicate 8 0), []) 2).1.pre.getD 3 0
      = (LoopState.mk (List.replicate 8 1) (List.replicate 8 (0 : ℚ))).pre.getD 3 0
  ∧ (processChannel 5 (fun _ => (3 : ℚ))
        (LoopState.mk (List.replicate 8 1) (List.replicate 8 0), []) 2).1.incr.getD 3 0
      = (LoopState.mk (List.replicate 8 1) (List.replicate 8 (0 : ℚ))).incr.getD 3 0 := by
  have h := frame_after_update 5 (fun _ => (3 : ℚ))
    (LoopState.mk (List.replicate 8 1) (List.replicate 8 0)) [] 2 (by decide)
  exact ⟨h.1, (h.2 3 (by decide)).1, (h.2 3 (by decide)).2⟩

/-- Claim C3, counterexample: with data_vol_max = -1 the tolerance is
negative, so a zero delta takes the first branch and the accumulator
changes by 0 - (-1) = 1 even though the new sample equals the previous
voltage; the claim quantifies over every data_vol_max and is therefore
false as stated. -/
theorem idempotence_counterexample :
    (processChannel (-1) (fun _ => 0)
        (LoopState.mk (List.replicate 8 0) (List.replicate 8 0), []) 1).1.incr.getD 1 0
      ≠ (LoopState.mk (List.replicate 8 (0 : ℚ)) (List.replicate 8 (0 : ℚ))).incr.getD 1 0 := by
  rw [processChannel_eq, getD_set_self _ _ _ (by decide)]
  show (0 : ℚ) + unwrapDelta 0 0 (-1) ≠ 0
  unfold unwrapDelta tolerance_ratio
  norm_num

/-- Claim C3, amended: when the reference voltage data_vol_max is
nonnegative, applying the update with a new sample equal to the previous
voltage leaves the accumulator unchanged, and the line recorded for the
channel carries the coefficient of the unchanged accumulator, so the
reported angle is unchanged as well. -/
theorem idempotence_amended (m : ℚ) (read : ℕ → ℚ) (s : LoopState)
    (out : List (ℕ × ℚ)) (c : ℕ) (hm : 0 ≤ m) (hv : read c = s.pre.getD c 0)
    (hi : c < s.incr.length) :
    (processChannel m read (s, out) c).1.incr.getD c 0 = s.incr.getD c 0
  ∧ (processChannel m read (s, out) c).2
      = out ++ [(c, s.incr.getD c 0 / m * 2)] := by
  rw [processChannel_eq]
  constructor
  · rw [getD_set_self _ _ _ hi, hv, unwrapDelta_self _ _ hm, add_zero]
  · rw [hv, unwrapDelta_self _ _ hm, add_zero]

theorem idempotence_witness :
    (processChannel 5 (fun _ => (1 : ℚ))
        (LoopState.mk (List.replicate 8 1) (List.replicate 8 0), []) 1).1.incr.getD 1 0
      = (LoopState.mk (List.replicate 8 1) (List.replicate 8 (0 : ℚ))).incr.getD 1 0
  ∧ (processChannel 5 (fun _ => (1 : ℚ))
        (LoopState.mk (List.replicate 8 1) (List.replicate 8 0), []) 1).2
      = [] ++ [(1, (LoopState.mk (List.replicate 8 1)
          (List.replicate 8 (0 : ℚ))).incr.getD 1 0 / 5 * 2)] :=
  idempotence_amended 5 (fun _ => (1 : ℚ))
    (LoopState.mk (List.replicate 8 1) (List.replicate 8 0)) [] 1
    (by norm_num) rfl (by decide)

/-- Claim C4, counterexample: at previous = 9.0, new = 0.5,
data_vol_max = 10.0 the delta is -8.5 and the tolerance is 9.0, so the
delta does not fall below minus the tolerance, the else branch applies and
the accumulator receives the raw delta -8.5, not the compensated
-8.5 + 10 the claim asserts for this input. -/
theorem jump_compensation_counterexample :
    (processChannel 10 (fun _ => 1 / 2)
        (LoopState.mk (List.replicate 8 9) (List.replicate 8 0), []) 1).1.incr.getD 1 0
      = 1 / 2 - 9
  ∧ (processChannel 10 (fun _ => 1 / 2)
        (LoopState.mk (List.replicate 8 9) (List.replicate 8 0), []) 1).1.incr.getD 1 0
      ≠ (1 / 2 - 9) + 10 := by
  have hval : (processChannel 10 (fun _ => 1 / 2)
      (LoopState.mk (List.replicate 8 9) (List.replicate 8 0), []) 1).1.incr.getD 1 0
      = 1 / 2 - 9 := by
    rw [processChannel_eq, getD_set_self _ _ _ (by decide)]
    show (0 : ℚ) + unwrapDelta 9 (1 / 2) 10 = 1 / 2 - 9
    unfold unwrapDelta tolerance_ratio
    norm_num
  refine ⟨hval, ?_⟩
  rw [hval]
  norm_num

/-- Claim C4, amended: for a nonnegative reference voltage data_vol_max, a
downward jump with delta below minus the tolerance is compensated by adding
data_vol_max and an upward jump with delta above the tolerance by
subtracting data_vol_max; the particular input previous = 9.0, new = 0.5,
data_vol_max = 10.0 has delta -8.5, within the tolerance 9.0, so it is not
compensated. -/
theorem jump_compensation_amended (p v m : ℚ) (hm : 0 ≤ m) :
    (v - p < -(m * tolerance_ratio) → unwrapDelta p v m = v - p + m)
  ∧ (m * tolerance_ratio < v - p → unwrapDelta p v m = v - p - m) := by
  have ht : 0 ≤ m * tolerance_ratio := mul_nonneg hm (by norm_num [tolerance_ratio])
  unfold unwrapDelta
  dsimp only
  constructor
  · intro h
    rw [if_neg (not_lt.mpr (by linarith)), if_pos (by linarith)]
  · intro h
    rw [if_pos h]

theorem jump_compensation_witness :
    unwrapDelta (24 / 5) (1 / 10) 5 = (1 / 10 : ℚ) - 24 / 5 + 5
  ∧ unwrapDelta (1 / 10) (24 / 5) 5 = (24 / 5 : ℚ) - 1 / 10 - 5 :=
  ⟨(jump_compensation_amended (24 / 5) (1 / 10) 5 (by norm_num)).1
      (by norm_num [tolerance_ratio]),
   (jump_compensation_amended (1 / 10) (24 / 5) 5 (by norm_num)).2
      (by norm_num [tolerance_ratio])⟩

/-- Claim C2: for a sequence of samples of one channel in which no step
delta exceeds the tolerance in magnitude, and with the reference voltage
constant across iterations, the final accumulator equals the sum of the
per-step deltas and the accumulated angle equals that sum times
2 pi / data_vol_max. -/
theorem no_wrap_linearity (high_channel c : ℕ) (reads : List (ℕ → ℚ))
    (read0 : ℕ → ℚ) (m : ℚ)
    (h1 : 1 ≤ c) (h2 : c ≤ high_channel) (h8 : c < 8)
    (hm : ∀ r ∈ reads, r 0 = m)
    (htol : ∀ d ∈ stepDeltas (read0 c) (reads.map fun r => r c),
        -(m * tolerance_ratio) ≤ d ∧ d ≤ m * tolerance_ratio) :
    (runLoop high_channel reads (initState high_channel read0)).1.incr.getD c 0
      = (stepDeltas (read0 c) (reads.map fun r => r c)).sum
  ∧ dataRad ((runLoop high_channel reads
        (initState high_channel read0)).1.incr.getD c 0 / m * 2)
      = ((stepDeltas (read0 c) (reads.map fun r => r c)).sum : ℝ)
          * (2 * Real.pi / m) := by
  obtain ⟨hl1, hl2⟩ := initState_length high_channel read0
  obtain ⟨g1, _, _, _⟩ := runLoop_proj high_channel c h1 h2 reads
    (initState high_channel read0) (by omega) (by omega)
  have hacc : (runLoop high_channel reads (initState high_channel read0)).1.incr.getD c 0
      = (stepDeltas (read0 c) (reads.map fun r => r c)).sum := by
    rw [g1, initState_pre_getD high_channel read0 c h2 h8,
      initState_incr_getD high_channel read0 c,
      map_pair_of_const c m reads hm,
      accumSteps_no_wrap m (reads.map fun r => r c) (read0 c) 0 htol, zero_add]
  refine ⟨hacc, ?_⟩
  rw [hacc]
  unfold dataRad
  push_cast
  ring

theorem no_wrap_linearity_witness :
    (runLoop 7 [fun _ => (2 : ℚ)] (initState 7 (fun _ => (1 : ℚ)))).1.incr.getD 1 0
      = (stepDeltas ((1 : ℚ)) ([fun _ => (2 : ℚ)].map fun r => r 1)).sum
  ∧ dataRad ((runLoop 7 [fun _ => (2 : ℚ)]
        (initState 7 (fun _ => (1 : ℚ)))).1.incr.getD 1 0 / 2 * 2)
      = ((stepDeltas ((1 : ℚ)) ([fun _ => (2 : ℚ)].map fun r => r 1)).sum : ℝ)
          * (2 * Real.pi / 2) :=
  no_wrap_linearity 7 1 [fun _ => (2 : ℚ)] (fun _ => (1 : ℚ)) 2
    (by decide) (by decide) (by decide)
    (by intro r hr; rw [List.mem_singleton] at hr; subst hr; rfl)
    (by intro d hd
        have : d = 2 - 1 := by
          simpa [stepDeltas] using hd
        rw [this]
        norm_num [tolerance_ratio])

/-- Claim C5, counterexample: division by zero is a numeric fault in the
sense of the spec and arises at the division of line 135 when data_vol_max
is zero, yet the except clause of the loop does not catch
ZeroDivisionError, so the fault does not silently terminate the loop as a
normal exit condition. -/
theorem loop_fault_handling_counterexample :
    numericOrTypeFaultSpec PyExc.zeroDivisionError = true
  ∧ divisionFault 0 = some PyExc.zeroDivisionError
  ∧ innerExceptCatches PyExc.zeroDivisionError = false := by
  refine ⟨rfl, ?_, rfl⟩
  unfold divisionFault
  simp

/-- Claim C5, amended: the except clause of the polling loop catches
exactly ValueError, NameError and SyntaxError and breaks; ZeroDivisionError,
raised at the division of line 135 exactly when data_vol_max is zero, and
TypeError are not caught and propagate out of the loop. -/
theorem loop_fault_handling_amended :
    (∀ e, innerExceptCatches e = true ↔
        (e = PyExc.valueError ∨ e = PyExc.nameError ∨ e = PyExc.synError))
  ∧ innerExceptCatches PyExc.zeroDivisionError = false
  ∧ innerExceptCatches PyExc.typeError = false
  ∧ (∀ m : ℚ, divisionFault m = some PyExc.zeroDivisionError ↔ m = 0) := by
  refine ⟨?_, rfl, rfl, ?_⟩
  · intro e
    cases e <;> simp [innerExceptCatches]
  · intro m
    unfold divisionFault
    split_ifs with h
    · simp [h]
    · simp [h]

/-- Claim C6: each iteration changes the accumulator of a channel only by
adding the compensated increment for that channel, and starting from the
initialization the accumulator equals the running total of the compensated
per-step deltas of the channel, with the reference voltage of each
iteration read from channel 0. -/
theorem accumulator_running_total (high_channel c : ℕ)
    (h1 : 1 ≤ c) (h2 : c ≤ high_channel) (h8 : c < 8)
    (reads : List (ℕ → ℚ)) (read0 : ℕ → ℚ) :
    (∀ (read : ℕ → ℚ) (s : LoopState), c < s.pre.length → c < s.incr.length →
        (iterStep high_channel read s).1.incr.getD c 0
          = s.incr.getD c 0 + unwrapDelta (s.pre.getD c 0) (read c) (read 0))
  ∧ (runLoop high_channel reads (initState high_channel read0)).1.incr.getD c 0
      = accumSteps (read0 c) 0 (reads.map fun r => (r 0, r c)) := by
  constructor
  · intro read s hp hi
    exact (iterStep_inrange high_channel c read s h1 h2 hp hi).2
  · obtain ⟨hl1, hl2⟩ := initState_length high_channel read0
    obtain ⟨g1, _, _, _⟩ := runLoop_proj high_channel c h1 h2 reads
      (initState high_channel read0) (by omega) (by omega)
    rw [g1, initState_pre_getD high_channel read0 c h2 h8,
      initState_incr_getD high_channel read0 c]

theorem accumulator_running_total_witness :
    (runLoop 7 [fun _ => (2 : ℚ)] (initState 7 (fun _ => (1 : ℚ)))).1.incr.getD 1 0
      = accumSteps 1 0 ([fun _ => (2 : ℚ)].map fun r => (r 0, r 1)) :=
  (accumulator_running_total 7 1 (by decide) (by decide) (by decide)
    [fun _ => (2 : ℚ)] (fun _ => (1 : ℚ))).2

/-- Claim C8, counterexample: on a concrete iteration the console lines are
one per channel 1 through 7 only; channel 0, although it is a configured
channel with its own state, receives no line, so the output does not
contain one line per channel. -/
theorem per_channel_line_counterexample :
    0 ∉ ((iterStep 7 (fun _ => (1 : ℚ)) (initState 7 (fun _ => 1))).2.map Prod.fst)
  ∧ ((iterStep 7 (fun _ => (1 : ℚ)) (initState 7 (fun _ => 1))).2.map Prod.fst)
      = [1, 2, 3, 4, 5, 6, 7] := by
  have hmap : ((iterStep 7 (fun _ => (1 : ℚ))
      (initState 7 (fun _ => 1))).2.map Prod.fst) = [1, 2, 3, 4, 5, 6, 7] := by
    rw [iterStep_out, List.map_map]
    rfl
  rw [hmap]
  exact ⟨by decide, rfl⟩

/-- Claim C8, amended: on every iteration the console output holds exactly
one line per channel from low_channel + 1 to high_channel, in order, and
each line renders as Channel(n) Data: followed by the formatted radian
value of that channel; the reference channel 0 gets no line.  The
six-decimal numeral formatting of the script is abstracted by the
formatter argument. -/
theorem per_channel_line_amended (high_channel : ℕ) (read : ℕ → ℚ) (s : LoopState)
    (fmt : ℝ → String) :
    (iterStep high_channel read s).2.map (fun l => renderLine l.1 (fmt (dataRad l.2)))
      = (List.range' (low_channel + 1) (high_channel - low_channel)).map (fun c =>
          "Channel(" ++ toString c ++ ") Data: "
            ++ fmt (dataRad ((s.incr.getD c 0
                + unwrapDelta (s.pre.getD c 0) (read c) (read 0)) / read 0 * 2))) := by
  rw [iterStep_out, List.map_map]
  rfl

/-- Claim C9: channel 0 is only the reference channel: across the whole
polling loop its accumulator stays 0, its previous voltage stays at the
value sampled during initialization, and no printed line carries channel
number 0. -/
theorem reference_channel_invariant (high_channel : ℕ) (reads : List (ℕ → ℚ))
    (read0 : ℕ → ℚ) :
    (runLoop high_channel reads (initState high_channel read0)).1.incr.getD 0 0 = 0
  ∧ (runLoop high_channel reads (initState high_channel read0)).1.pre.getD 0 0 = read0 0
  ∧ ∀ l ∈ (runLoop high_channel reads (initState high_channel read0)).2, l.1 ≠ 0 := by
  obtain ⟨f1, f2⟩ := runLoop_frame0 high_channel reads (initState high_channel read0)
  refine ⟨?_, ?_, ?_⟩
  · rw [f2, initState_incr_getD]
  · rw [f1, initState_pre_getD high_channel read0 0 (by omega) (by omega)]
  · intro l hl
    have := runLoop_out_pos high_channel reads (initState high_channel read0) l hl
    omega

theorem reference_channel_invariant_witness :
    (runLoop 7 [fun _ => (2 : ℚ)] (initState 7 (fun _ => (1 : ℚ)))).1.incr.getD 0 0 = 0
  ∧ (runLoop 7 [fun _ => (2 : ℚ)] (initState 7 (fun _ => (1 : ℚ)))).1.pre.getD 0 0 = 1
  ∧ ∀ l ∈ (runLoop 7 [fun _ => (2 : ℚ)] (initState 7 (fun _ => (1 : ℚ)))).2, l.1 ≠ 0 :=
  reference_channel_invariant 7 [fun _ => (2 : ℚ)] (fun _ => (1 : ℚ))

/-- Claim C10: every single unwrap update adds delta plus k times
data_vol_max to the accumulator for some k in -1, 0, +1, and when the
reference voltage is the same across all iterations the accumulator
differs from the raw voltage displacement, current previous voltage minus
initial voltage, by an integer multiple of data_vol_max. -/
theorem integer_multiple_drift (high_channel c : ℕ) (m : ℚ)
    (h1 : 1 ≤ c) (h2 : c ≤ high_channel) (h8 : c < 8)
    (reads : List (ℕ → ℚ)) (read0 : ℕ → ℚ) (hm : ∀ r ∈ reads, r 0 = m) :
    (∀ p v mm : ℚ, ∃ k : ℤ, (k = -1 ∨ k = 0 ∨ k = 1) ∧
        unwrapDelta p v mm = (v - p) + k * mm)
  ∧ ∃ k : ℤ,
      (runLoop high_channel reads (initState high_channel read0)).1.incr.getD c 0
        = ((runLoop high_channel reads
              (initState high_channel read0)).1.pre.getD c 0 - read0 c) + k * m := by
  constructor
  · intro p v mm
    exact unwrapDelta_cases p v mm
  · obtain ⟨hl1, hl2⟩ := initState_length high_channel read0
    obtain ⟨g1, g2, _, _⟩ := runLoop_proj high_channel c h1 h2 reads
      (initState high_channel read0) (by omega) (by omega)
    rw [g1, g2, initState_pre_getD high_channel read0 c h2 h8,
      initState_incr_getD high_channel read0 c,
      map_pair_of_const c m reads hm]
    obtain ⟨k, hk⟩ := accumSteps_mod m (reads.map fun r => r c) (read0 c) 0
    refine ⟨k, ?_⟩
    rw [hk, zero_add]

theorem integer_multiple_drift_witness :
    (∀ p v mm : ℚ, ∃ k : ℤ, (k = -1 ∨ k = 0 ∨ k = 1) ∧
        unwrapDelta p v mm = (v - p) + k * mm)
  ∧ ∃ k : ℤ,
      (runLoop 7 [fun _ => (2 : ℚ)] (initState 7 (fun _ => (1 : ℚ)))).1.incr.getD 1 0
        = ((runLoop 7 [fun _ => (2 : ℚ)]
              (initState 7 (fun _ => (1 : ℚ)))).1.pre.getD 1 0 - 1) + k * 2 :=
  integer_multiple_drift 7 1 2 (by decide) (by decide) (by decide)
    [fun _ => (2 : ℚ)] (fun _ => (1 : ℚ))
    (by intro r hr; rw [List.mem_singleton] at hr; subst hr; rfl)

end EncoderReading
